import Mathlib

/-
Verification of the streaming chat client (Simple-Ai-Agent-v8).

Shallow embedding of the modules the claims are about:
  * utils.js            : encrypt / decrypt (XOR key obfuscation), parseSSELine
  * api-service.js      : _prepareMessagesForCoT, sendRequest dispatch,
                          streamOpenAIRequest / streamGeminiRequest framing loops
  * chat-controller.js  : processCoTResponse, processPartialCoTResponse,
                          formatResponseForDisplay, the streaming read loop and
                          the history append in handleOpenAIMessage / handleGeminiMessage

JavaScript strings are modelled as `List Char`; machine-level byte/char codes as
`Nat`.  `TextDecoder`/`TextEncoder` round-trips (identities on the character
level) are elided, so all stream processing works on characters.
-/

/-- The character list of a string literal (JS strings are lists of chars here). -/
def strL (s : String) : List Char := s.data

deriving instance DecidableEq for Except

/- ----------------------------------------------------------------------
   Generic string machinery shared by the embeddings
   ---------------------------------------------------------------------- -/

/-- JS whitespace test used by `String.prototype.trim` (the characters that
actually occur in this code's data). -/
def isWS (c : Char) : Bool :=
  c = ' ' || c = '\t' || c = '\n' || c = '\r'

/-- `String.prototype.trim`: drop whitespace from both ends. -/
def trimL (l : List Char) : List Char :=
  ((l.dropWhile isWS).reverse.dropWhile isWS).reverse

/-- `pat` occurs at the start of `l` (JS `startsWith`). -/
def hasPrefixL : List Char → List Char → Bool
  | [], _ => true
  | _ :: _, [] => false
  | p :: ps, c :: cs => p = c && hasPrefixL ps cs

/-- Split `l` around the first occurrence of `pat`: returns
`some (before, after)` with `l = before ++ pat ++ after`, or `none` when `pat`
does not occur.  This is the primitive behind JS `includes`, the leftmost
regexp match and `replace(/^.*?pat/s, '')`. -/
def breakFirst (pat : List Char) : List Char → Option (List Char × List Char)
  | [] => if hasPrefixL pat [] then some ([], []) else none
  | c :: cs =>
    if hasPrefixL pat (c :: cs) then some ([], (c :: cs).drop pat.length)
    else
      match breakFirst pat cs with
      | some (pre, post) => some (c :: pre, post)
      | none => none

/-- JS `String.prototype.includes`. -/
def containsL (pat l : List Char) : Bool :=
  (breakFirst pat l).isSome

/-- Everything after the first occurrence of `pat` (the input itself when `pat`
is absent; only used under a containment hypothesis). -/
def afterFirstD (pat l : List Char) : List Char :=
  match breakFirst pat l with
  | some (_, post) => post
  | none => l

/-- Everything from after the first `pat1` up to the next `pat2` (or the end of
the string when no `pat2` follows): the regexp capture of
`/pat1(.*?)(?=pat2|$)/s`. -/
def betweenD (pat1 pat2 l : List Char) : List Char :=
  let post := afterFirstD pat1 l
  match breakFirst pat2 post with
  | some (pre2, _) => pre2
  | none => post

/- ----------------------------------------------------------------------
   C10: utils.js `encrypt` / `decrypt` (XOR cipher with decimal coding)
   ---------------------------------------------------------------------- -/

/-- Positional lookup with default 0 (JS indexing out of range gives NaN,
which never arises under the claims' hypotheses). -/
def nthD : List Nat → Nat → Nat
  | [], _ => 0
  | k :: _, 0 => k
  | _ :: ks, n + 1 => nthD ks n

/-- `key.charCodeAt(i % key.length)`. -/
def keyAt (key : List Nat) (i : Nat) : Nat :=
  nthD key (i % key.length)

/-- Decimal digits of `n` (enough positions for every 16-bit char code; this is
JS `Number.prototype.toString()` restricted to the values that can arise). -/
def decimalDigits (n : Nat) : List Nat :=
  if n < 10 then [n]
  else if n < 100 then [n / 10, n % 10]
  else if n < 1000 then [n / 100, n / 10 % 10, n % 10]
  else if n < 10000 then [n / 1000, n / 100 % 10, n / 10 % 10, n % 10]
  else [n / 10000, n / 1000 % 10, n / 100 % 10, n / 10 % 10, n % 10]

/-- JS `padStart(3, '0')` on a digit string. -/
def padStart3 (ds : List Nat) : List Nat :=
  List.replicate (3 - ds.length) 0 ++ ds

/-- utils.js `encrypt(text, key)` on the UTF-8 bytes of the text (for ASCII
text these bytes are exactly the char codes): each byte is XORed with the
repeating key stream and written as a 3-digit zero-padded decimal group. -/
def xorEncrypt (key : List Nat) : Nat → List Nat → List Nat
  | _, [] => []
  | i, b :: bs => padStart3 (decimalDigits (b ^^^ keyAt key i)) ++ xorEncrypt key (i + 1) bs

/-- utils.js `decrypt(ciphertext, key)`: take the ciphertext three digit
characters at a time (`slice(i, i+3)` + `parseInt`, so a short trailing group
of one or two digits is still parsed), XOR with the key stream.  The final
`decode(encode(·))` detour of the source is the identity on the produced
string and is elided. -/
def xorDecrypt (key : List Nat) : Nat → List Nat → List Nat
  | _, [] => []
  | j, [d1] => [d1 ^^^ keyAt key j]
  | j, [d1, d2] => [(d1 * 10 + d2) ^^^ keyAt key j]
  | j, d1 :: d2 :: d3 :: rest =>
    ((d1 * 100 + d2 * 10 + d3) ^^^ keyAt key j) :: xorDecrypt key (j + 1) rest

theorem nthD_lt (key : List Nat) (hkey : ∀ k ∈ key, k < 128) :
    ∀ n, nthD key n < 128 := by
  induction key with
  | nil => intro n; simp [nthD]
  | cons k ks ih =>
    intro n
    cases n with
    | zero => exact hkey k (List.mem_cons_self k ks)
    | succ n => exact ih (fun x hx => hkey x (List.mem_cons_of_mem k hx)) n

theorem keyAt_lt (key : List Nat) (hkey : ∀ k ∈ key, k < 128) (i : Nat) :
    keyAt key i < 128 :=
  nthD_lt key hkey (i % key.length)

theorem padStart3_decimalDigits (v : Nat) (h : v < 1000) :
    padStart3 (decimalDigits v) = [v / 100, v / 10 % 10, v % 10] := by
  by_cases h10 : v < 10
  · have h1 : v / 100 = 0 := by omega
    have h2 : v / 10 % 10 = 0 := by omega
    have h3 : v % 10 = v := by omega
    simp [decimalDigits, padStart3, h10, h1, h2, h3, List.replicate]
  · by_cases h100 : v < 100
    · have h1 : v / 100 = 0 := by omega
      have h2 : v / 10 % 10 = v / 10 := by omega
      simp [decimalDigits, padStart3, h10, h100, h1, h2, List.replicate]
    · simp [decimalDigits, padStart3, h10, h100, h, List.replicate]

theorem xorDecrypt_encrypt (key : List Nat) (hkey : ∀ k ∈ key, k < 128) :
    ∀ (bs : List Nat) (i : Nat), (∀ b ∈ bs, b < 128) →
      xorDecrypt key i (xorEncrypt key i bs) = bs := by
  intro bs
  induction bs with
  | nil => intro i _; simp [xorEncrypt, xorDecrypt]
  | cons b bs ih =>
    intro i hb
    have hblt : b < 128 := hb b (List.mem_cons_self b bs)
    have hkl : keyAt key i < 128 := keyAt_lt key hkey i
    have hv : b ^^^ keyAt key i < 128 := by
      have : (128 : Nat) = 2 ^ 7 := by norm_num
      rw [this] at hblt hkl ⊢
      exact Nat.xor_lt_two_pow hblt hkl
    set v := b ^^^ keyAt key i with hvdef
    have hpad : padStart3 (decimalDigits v) = [v / 100, v / 10 % 10, v % 10] :=
      padStart3_decimalDigits v (by omega)
    have hparse : v / 100 * 100 + v / 10 % 10 * 10 + v % 10 = v := by omega
    have hxor : v ^^^ keyAt key i = b := by
      rw [hvdef]; exact Nat.xor_cancel_right _ _
    calc xorDecrypt key i (xorEncrypt key i (b :: bs))
        = xorDecrypt key i (v / 100 :: v / 10 % 10 :: v % 10 :: xorEncrypt key (i + 1) bs) := by
          rw [xorEncrypt, hpad]; rfl
      _ = ((v / 100 * 100 + v / 10 % 10 * 10 + v % 10) ^^^ keyAt key i) ::
            xorDecrypt key (i + 1) (xorEncrypt key (i + 1) bs) := by
          rw [xorDecrypt]
      _ = b :: bs := by
          rw [hparse, hxor, ih (i + 1) (fun x hx => hb x (List.mem_cons_of_mem b hx))]

/-- C10: round-trip of the XOR key obfuscation used for stored credentials:
for every plaintext consisting only of ASCII characters (char codes < 128) and
every nonempty ASCII key, `decrypt(encrypt(text, key), key) = text`. -/
theorem c10_xor_roundtrip (text key : List Nat) (_hk : key ≠ [])
    (htext : ∀ b ∈ text, b < 128) (hkey : ∀ k ∈ key, k < 128) :
    xorDecrypt key 0 (xorEncrypt key 0 text) = text :=
  xorDecrypt_encrypt key hkey text 0 htext

theorem c10_xor_roundtrip_witness :
    xorDecrypt [107] 0 (xorEncrypt [107] 0 [97, 98, 99]) = [97, 98, 99] :=
  c10_xor_roundtrip [97, 98, 99] [107] (by decide) (by decide) (by decide)

/- ----------------------------------------------------------------------
   Chat messages
   ---------------------------------------------------------------------- -/

/-- One entry of the chat history / request payload: `{ role, content }`. -/
structure ChatMsg where
  role : List Char
  content : List Char
deriving DecidableEq

/- ----------------------------------------------------------------------
   C4: api-service.js `_prepareMessagesForCoT`
   ---------------------------------------------------------------------- -/

/-- The CoT instruction fragment chosen in `_prepareMessagesForCoT`. -/
def cotInstruction (showThinking : Bool) : List Char :=
  if showThinking then
    strL "Think step by step about this problem. First reason through the problem clearly and explain your thinking process, then give your final answer."
  else
    strL "Solve this step by step, but only show your final answer."

/-- api-service.js `_prepareMessagesForCoT(messages, useCoT, showThinking)`.

The source makes a shallow copy `[...messages]` and then assigns
`lastMessage.content = content + "\n\n" + instruction`.  Under JavaScript
reference semantics the copied array shares its element objects with the
caller's array, so that assignment is observed by BOTH arrays.  The model
therefore returns the pair `(finalMessages, messagesAfter)` where
`finalMessages` is the returned array and `messagesAfter` is the content of
the caller's `messages` array after the call. -/
def prepareMessagesForCoT (messages : List ChatMsg) (useCoT showThinking : Bool) :
    List ChatMsg × List ChatMsg :=
  if useCoT = false then (messages, messages)
  else
    match messages.getLast? with
    | some last =>
      if last.role = strL "user" then
        let updated := messages.dropLast ++
          [⟨last.role, last.content ++ strL "\n\n" ++ cotInstruction showThinking⟩]
        (updated, updated)
      else (messages, messages)
    | none => (messages, messages)

/-- C4: evaluation at the failing input.  With CoT enabled the instruction IS
appended to the final user turn exactly once — but the stored history is
mutated as well: the shallow `[...messages]` clone shares the last message
object with the caller, so after payload construction the caller's stored
message also carries the instruction, contradicting both the claim and the
source's own comment "Clone messages to avoid mutating the original". -/
theorem c4_history_mutation :
    (prepareMessagesForCoT [⟨strL "user", strL "Hi"⟩] true false).2
        ≠ [⟨strL "user", strL "Hi"⟩]
    ∧ (prepareMessagesForCoT [⟨strL "user", strL "Hi"⟩] true false).1
        = (prepareMessagesForCoT [⟨strL "user", strL "Hi"⟩] true false).2
    ∧ (prepareMessagesForCoT [⟨strL "user", strL "Hi"⟩] true false).1
        = [⟨strL "user", strL "Hi" ++ strL "\n\n" ++ cotInstruction false⟩] := by
  refine ⟨by decide, rfl, by decide⟩

/- ----------------------------------------------------------------------
   C9: api-service.js `sendRequest` model dispatch (lines 465-474)
   ---------------------------------------------------------------------- -/

inductive Provider where
  | openai
  | google
deriving DecidableEq

inductive SendErr where
  | missingKey
  | unsupportedModel
deriving DecidableEq

/-- The `API_ENDPOINTS` table of api-service.js, reduced to the provider tag
(the only part dispatch consults). -/
def apiEndpointsProvider (m : List Char) : Option Provider :=
  if m = strL "gpt-4.1-mini" then some Provider.openai
  else if m = strL "gpt-4.1-nano" then some Provider.openai
  else if m = strL "gemini-2.0-flash" then some Provider.google
  else if m = strL "gemma-3-27b-it" then some Provider.google
  else none

/-- The guard clauses of `sendRequest`: missing key first, then an exact table
lookup of the model id (`API_ENDPOINTS[model]`), `Unsupported model` when the
id is not a key of the table. -/
def dispatchModel (apiKey m : List Char) : Except SendErr Provider :=
  if apiKey = [] then Except.error SendErr.missingKey
  else
    match apiEndpointsProvider m with
    | some p => Except.ok p
    | none => Except.error SendErr.unsupportedModel

/-- C9 counterexample: `"gpt-5"` begins with the GPT-family prefix `"gpt"`,
yet with a key available `sendRequest` fails with UnsupportedModel instead of
routing it to Provider A — dispatch is an exact table lookup, not a prefix
test. -/
theorem c9_gpt_prefix_not_routed :
    dispatchModel (strL "k") (strL "gpt-5") = Except.error SendErr.unsupportedModel
    ∧ hasPrefixL (strL "gpt") (strL "gpt-5") = true := by
  exact ⟨by decide, by decide⟩

/-- C9 (amended): with an API key available, dispatch is an exact lookup in
the static model table: `gpt-4.1-mini` and `gpt-4.1-nano` go to Provider A
(openai), `gemini-2.0-flash` and `gemma-3-27b-it` to Provider B (google), and
every other identifier — including unknown GPT- or Gemini-prefixed ones —
fails with UnsupportedModel. -/
theorem c9_dispatch_table (apiKey m : List Char) (hk : apiKey ≠ []) :
    (dispatchModel apiKey m = Except.ok Provider.openai
       ↔ (m = strL "gpt-4.1-mini" ∨ m = strL "gpt-4.1-nano"))
    ∧ (dispatchModel apiKey m = Except.ok Provider.google
       ↔ (m = strL "gemini-2.0-flash" ∨ m = strL "gemma-3-27b-it"))
    ∧ (m ≠ strL "gpt-4.1-mini" → m ≠ strL "gpt-4.1-nano" →
       m ≠ strL "gemini-2.0-flash" → m ≠ strL "gemma-3-27b-it" →
       dispatchModel apiKey m = Except.error SendErr.unsupportedModel) := by
  have hx : dispatchModel apiKey m =
      (match apiEndpointsProvider m with
       | some p => Except.ok p
       | none => Except.error SendErr.unsupportedModel) := by
    unfold dispatchModel
    rw [if_neg hk]
  rw [hx]
  by_cases h1 : m = strL "gpt-4.1-mini"
  · subst h1; decide
  · by_cases h2 : m = strL "gpt-4.1-nano"
    · subst h2; decide
    · by_cases h3 : m = strL "gemini-2.0-flash"
      · subst h3; decide
      · by_cases h4 : m = strL "gemma-3-27b-it"
        · subst h4; decide
        · have hnone : apiEndpointsProvider m = none := by
            rw [apiEndpointsProvider, if_neg h1, if_neg h2, if_neg h3, if_neg h4]
          rw [hnone]
          exact ⟨by simp [h1, h2], by simp [h3, h4], fun _ _ _ _ => rfl⟩

theorem c9_dispatch_table_witness :
    dispatchModel (strL "k") (strL "gemini-2.0-flash") = Except.ok Provider.google
    ∧ dispatchModel (strL "k") (strL "claude-3") = Except.error SendErr.unsupportedModel := by
  refine ⟨((c9_dispatch_table (strL "k") (strL "gemini-2.0-flash") (by decide)).2.1).mpr
      (Or.inl rfl),
    (c9_dispatch_table (strL "k") (strL "claude-3") (by decide)).2.2
      (by decide) (by decide) (by decide) (by decide)⟩

/- ----------------------------------------------------------------------
   Reasoning Splitter: chat-controller.js `processPartialCoTResponse`,
   `processCoTResponse`, `formatResponseForDisplay`
   ---------------------------------------------------------------------- -/

def thinkingMark : List Char := strL "Thinking:"

def answerMark : List Char := strL "Answer:"

/-- The object produced by the two CoT response processors:
`{ thinking, answer, hasStructuredResponse, partial?, stage? }` (absent JS
fields are the falsy defaults). -/
structure Processed where
  thinking : List Char
  answer : List Char
  structured : Bool
  isPartial : Bool
  stageThinking : Bool
deriving DecidableEq

/-- chat-controller.js `processPartialCoTResponse(fullText)` — the streaming
Reasoning Splitter, recomputed on every cumulative buffer:
1. contains `Thinking:` but not `Answer:` → thinking-only (partial);
2. contains both → captures of `/Thinking:(.*?)(?=Answer:|$)/s` and
   `/Answer:(.*?)$/s` (the inner null-check can never fire since both markers
   occur);
3. otherwise the whole text is the answer, unstructured. -/
def processPartialCoT (fullText : List Char) : Processed :=
  if containsL thinkingMark fullText && !containsL answerMark fullText then
    { thinking := trimL (afterFirstD thinkingMark fullText), answer := [],
      structured := true, isPartial := true, stageThinking := true }
  else if containsL thinkingMark fullText && containsL answerMark fullText then
    match breakFirst thinkingMark fullText, breakFirst answerMark fullText with
    | some _, some (_, postA) =>
      { thinking := trimL (betweenD thinkingMark answerMark fullText),
        answer := trimL postA, structured := true, isPartial := false, stageThinking := false }
    | _, _ =>
      { thinking := [], answer := fullText, structured := false,
        isPartial := false, stageThinking := false }
  else
    { thinking := [], answer := fullText, structured := false,
      isPartial := false, stageThinking := false }

/-- chat-controller.js `processCoTResponse(response)` — the end-of-exchange
processor whose `answer` is what gets pushed into chat history.  It reads the
stale `this.lastAnswerContent` in its thinking-only branch, passed here as
`lastAnswer`.  Branch order as in the source: both regexp matches succeed →
structured; else starts with `Thinking:` and no `Answer:` → partial thinking
with the stale answer; else the `includes && !match` branch (unreachable,
since the match succeeds whenever the marker occurs); else the whole response
is the answer. -/
def processCoT (lastAnswer response : List Char) : Processed :=
  match breakFirst thinkingMark response, breakFirst answerMark response with
  | some _, some (_, postA) =>
    { thinking := trimL (betweenD thinkingMark answerMark response),
      answer := trimL postA, structured := true, isPartial := false, stageThinking := false }
  | _, _ =>
    if hasPrefixL thinkingMark response && !containsL answerMark response then
      { thinking := trimL (response.drop thinkingMark.length), answer := lastAnswer,
        structured := true, isPartial := true, stageThinking := true }
    else if containsL thinkingMark response && !(breakFirst thinkingMark response).isSome then
      { thinking := trimL (afterFirstD thinkingMark response), answer := [],
        structured := false, isPartial := true, stageThinking := false }
    else
      { thinking := [], answer := response, structured := false,
        isPartial := false, stageThinking := false }

/-- The literal fallback string shown while no answer text exists yet. -/
def thinkingPlaceholder : List Char := strL "🤔 Thinking..."

/-- chat-controller.js `formatResponseForDisplay(processed)`. -/
def formatForDisplay (cotEnabled showThinking : Bool) (p : Processed) : List Char :=
  if !cotEnabled || !p.structured then p.answer
  else if showThinking then
    (if p.isPartial && p.stageThinking then strL "Thinking: " ++ p.thinking
     else if p.isPartial then p.thinking
     else strL "Thinking: " ++ p.thinking ++ strL "\n\nAnswer: " ++ p.answer)
  else (if p.answer = [] then thinkingPlaceholder else p.answer)

/-- The ReasoningView computed per streamed chunk in `handleOpenAIMessage` /
`handleGeminiMessage`: when CoT is enabled the buffer goes through
`processPartialCoTResponse`, otherwise the raw text is the display/answer. -/
def reasoningView (cotEnabled : Bool) (fullText : List Char) : Processed :=
  if cotEnabled then processPartialCoT fullText
  else
    { thinking := [], answer := fullText, structured := false,
      isPartial := false, stageThinking := false }

/-- The content pushed to `chatHistory` for the assistant turn at the end of
an exchange (`handleOpenAIMessage` lines 322-328): the processed `answer`
when CoT is enabled, the raw response text otherwise. -/
def persistedAnswer (cot : Bool) (lastAnswer response : List Char) : List Char :=
  if cot then (processCoT lastAnswer response).answer else response

/- Substring machinery lemmas -/

theorem hasPrefixL_nil_pat (pat : List Char) (h : hasPrefixL pat [] = true) : pat = [] := by
  cases pat with
  | nil => rfl
  | cons p ps => simp [hasPrefixL] at h

theorem hasPrefixL_eq_append (pat : List Char) :
    ∀ l, hasPrefixL pat l = true → l = pat ++ l.drop pat.length := by
  induction pat with
  | nil => intro l _; simp
  | cons p ps ih =>
    intro l h
    cases l with
    | nil => simp [hasPrefixL] at h
    | cons c cs =>
      simp only [hasPrefixL, Bool.and_eq_true, decide_eq_true_eq] at h
      obtain ⟨hpc, hrest⟩ := h
      rw [List.cons_append, List.length_cons, List.drop_succ_cons, hpc]
      exact congrArg (c :: ·) (ih cs hrest)

theorem hasPrefixL_self_append (pat : List Char) : ∀ r, hasPrefixL pat (pat ++ r) = true := by
  induction pat with
  | nil => intro r; rfl
  | cons p ps ih => intro r; simp [hasPrefixL, ih r]

theorem breakFirst_decomp (pat : List Char) :
    ∀ l pre post, breakFirst pat l = some (pre, post) → l = pre ++ pat ++ post := by
  intro l
  induction l with
  | nil =>
    intro pre post h
    by_cases hp : hasPrefixL pat [] = true
    · have hpat := hasPrefixL_nil_pat pat hp
      simp [breakFirst, hp] at h
      obtain ⟨h1, h2⟩ := h
      subst h1
      subst h2
      simp [hpat]
    · simp [breakFirst, hp] at h
  | cons c cs ih =>
    intro pre post h
    by_cases hp : hasPrefixL pat (c :: cs) = true
    · simp [breakFirst, hp] at h
      obtain ⟨h1, h2⟩ := h
      subst h1
      subst h2
      simpa using hasPrefixL_eq_append pat (c :: cs) hp
    · simp [breakFirst, hp] at h
      rcases hbc : breakFirst pat cs with _ | ⟨pre2, post2⟩
      · rw [hbc] at h; simp at h
      · rw [hbc] at h
        simp at h
        obtain ⟨h1, h2⟩ := h
        subst h1
        subst h2
        simpa using congrArg (c :: ·) (ih pre2 post2 hbc)

theorem breakFirst_isSome_of_hasPrefix (pat l : List Char) (h : hasPrefixL pat l = true) :
    (breakFirst pat l).isSome = true := by
  cases l with
  | nil => simp [breakFirst, h]
  | cons c cs => simp [breakFirst, h]

theorem containsL_cons (pat : List Char) (c : Char) (cs : List Char)
    (h : containsL pat cs = true) : containsL pat (c :: cs) = true := by
  unfold containsL at h ⊢
  by_cases hp : hasPrefixL pat (c :: cs) = true
  · simp [breakFirst, hp]
  · rcases hbc : breakFirst pat cs with _ | ⟨pre, post⟩
    · rw [hbc] at h; simp at h
    · simp [breakFirst, hp, hbc]

theorem containsL_of_parts (pat : List Char) : ∀ x y, containsL pat (x ++ pat ++ y) = true := by
  intro x
  induction x with
  | nil =>
    intro y
    unfold containsL
    exact breakFirst_isSome_of_hasPrefix pat (pat ++ y) (hasPrefixL_self_append pat y)
  | cons a x ih =>
    intro y
    exact containsL_cons pat a (x ++ pat ++ y) (ih y)

theorem containsL_iff (pat l : List Char) :
    containsL pat l = true ↔ ∃ x y, l = x ++ pat ++ y := by
  constructor
  · intro h
    unfold containsL at h
    rcases hbc : breakFirst pat l with _ | ⟨pre, post⟩
    · rw [hbc] at h; simp at h
    · exact ⟨pre, post, breakFirst_decomp pat l pre post hbc⟩
  · rintro ⟨x, y, rfl⟩
    exact containsL_of_parts pat x y

theorem dropWhile_suffix_decomp (p : Char → Bool) :
    ∀ l : List Char, ∃ a, l = a ++ l.dropWhile p := by
  intro l
  induction l with
  | nil => exact ⟨[], rfl⟩
  | cons c cs ih =>
    by_cases h : p c = true
    · obtain ⟨a, ha⟩ := ih
      refine ⟨c :: a, ?_⟩
      rw [List.dropWhile_cons, if_pos h, List.cons_append]
      exact congrArg (c :: ·) ha
    · refine ⟨[], ?_⟩
      rw [List.dropWhile_cons, if_neg h, List.nil_append]

theorem trimL_infix (l : List Char) : ∃ a b, l = a ++ trimL l ++ b := by
  obtain ⟨a1, h1⟩ := dropWhile_suffix_decomp isWS l
  obtain ⟨a2, h2⟩ := dropWhile_suffix_decomp isWS (l.dropWhile isWS).reverse
  have h3 : l.dropWhile isWS = trimL l ++ a2.reverse := by
    have h4 := congrArg List.reverse h2
    rw [List.reverse_reverse, List.reverse_append] at h4
    exact h4
  refine ⟨a1, a2.reverse, ?_⟩
  calc l = a1 ++ l.dropWhile isWS := h1
    _ = a1 ++ (trimL l ++ a2.reverse) := by rw [h3]
    _ = a1 ++ trimL l ++ a2.reverse := (List.append_assoc _ _ _).symm

theorem containsL_trimL (pat l : List Char) (h : containsL pat (trimL l) = true) :
    containsL pat l = true := by
  obtain ⟨x, y, hxy⟩ := (containsL_iff pat (trimL l)).1 h
  obtain ⟨a, b, hab⟩ := trimL_infix l
  refine (containsL_iff pat l).2 ⟨a ++ x, y ++ b, ?_⟩
  rw [hab, hxy]
  simp [List.append_assoc]

/-- C1: for every cumulative buffer, the streaming Reasoning Splitter
(`processPartialCoTResponse`, wrapped by the per-chunk display path of the
controller) classifies by the stated precedence: CoT disabled or no marker →
the whole text is the answer, unstructured; `Thinking:` without `Answer:` →
thinkingText is the substring after the first `Thinking:` trimmed, empty
answer, partial; both markers → thinkingText is the trimmed capture between
`Thinking:` and the next `Answer:` (or end), answerText the trimmed text
after the first `Answer:`, not partial. -/
theorem c1_reasoning_splitter (cot : Bool) (t : List Char) :
    ((cot = false ∨ (containsL thinkingMark t = false ∧ containsL answerMark t = false)) →
      (reasoningView cot t).answer = t ∧ (reasoningView cot t).structured = false)
    ∧ (cot = true → containsL thinkingMark t = true → containsL answerMark t = false →
      (reasoningView cot t).thinking = trimL (afterFirstD thinkingMark t)
      ∧ (reasoningView cot t).answer = []
      ∧ (reasoningView cot t).isPartial = true)
    ∧ (cot = true → containsL thinkingMark t = true → containsL answerMark t = true →
      (reasoningView cot t).thinking = trimL (betweenD thinkingMark answerMark t)
      ∧ (reasoningView cot t).answer = trimL (afterFirstD answerMark t)
      ∧ (reasoningView cot t).isPartial = false) := by
  refine ⟨?_, ?_, ?_⟩
  · rintro (hc | ⟨hT, hA⟩)
    · subst hc; simp [reasoningView]
    · cases cot with
      | false => simp [reasoningView]
      | true => simp [reasoningView, processPartialCoT, hT, hA]
  · intro hc hT hA
    subst hc
    simp [reasoningView, processPartialCoT, hT, hA]
  · intro hc hT hA
    subst hc
    rcases hmT : breakFirst thinkingMark t with _ | ⟨preT, postT⟩
    · rw [containsL, hmT] at hT; simp at hT
    rcases hmA : breakFirst answerMark t with _ | ⟨preA, postA⟩
    · rw [containsL, hmA] at hA; simp at hA
    simp [reasoningView, processPartialCoT, hT, hA, hmT, hmA, afterFirstD]

theorem c1_reasoning_splitter_witness :
    (reasoningView true (strL "hello")).answer = strL "hello"
    ∧ (reasoningView true (strL "Thinking: abc")).thinking = strL "abc"
    ∧ (reasoningView true (strL "Thinking: abc")).isPartial = true
    ∧ (reasoningView true (strL "Thinking: abc\nAnswer: xyz")).thinking = strL "abc"
    ∧ (reasoningView true (strL "Thinking: abc\nAnswer: xyz")).answer = strL "xyz"
    ∧ (reasoningView true (strL "Thinking: abc\nAnswer: xyz")).isPartial = false := by
  refine ⟨((c1_reasoning_splitter true (strL "hello")).1 (Or.inr (by decide))).1, ?_, ?_, ?_, ?_, ?_⟩
  · have h := ((c1_reasoning_splitter true (strL "Thinking: abc")).2.1 rfl (by decide) (by decide)).1
    rw [h]; decide
  · exact ((c1_reasoning_splitter true (strL "Thinking: abc")).2.1 rfl (by decide) (by decide)).2.2
  · have h := ((c1_reasoning_splitter true (strL "Thinking: abc\nAnswer: xyz")).2.2 rfl
      (by decide) (by decide)).1
    rw [h]; decide
  · have h := ((c1_reasoning_splitter true (strL "Thinking: abc\nAnswer: xyz")).2.2 rfl
      (by decide) (by decide)).2.1
    rw [h]; decide
  · exact ((c1_reasoning_splitter true (strL "Thinking: abc\nAnswer: xyz")).2.2 rfl
      (by decide) (by decide)).2.2

/-- C2 counterexample: with CoT enabled, the completed response
`"Thinking: a Answer: b Thinking: c"` persists `"b Thinking: c"` into chat
history — the appended assistant message DOES contain the substring
`Thinking:`, because `processCoTResponse` takes everything after the FIRST
`Answer:` as the answer. -/
theorem c2_history_counterexample :
    containsL thinkingMark
      (persistedAnswer true [] (strL "Thinking: a Answer: b Thinking: c")) = true
    ∧ persistedAnswer true [] (strL "Thinking: a Answer: b Thinking: c")
      = strL "b Thinking: c" := by
  exact ⟨by decide, by decide⟩

/-- C2 (amended): when CoT is enabled and the completed response contains both
markers with no further `Thinking:` occurrence after the first `Answer:`, the
assistant message appended to history (the trimmed text after the first
`Answer:`) contains no `Thinking:` substring. -/
theorem c2_history_no_thinking (lastAnswer response : List Char)
    (hT : containsL thinkingMark response = true)
    (hA : containsL answerMark response = true)
    (hclean : containsL thinkingMark (afterFirstD answerMark response) = false) :
    containsL thinkingMark (persistedAnswer true lastAnswer response) = false := by
  rcases hmT : breakFirst thinkingMark response with _ | ⟨preT, postT⟩
  · rw [containsL, hmT] at hT; simp at hT
  rcases hmA : breakFirst answerMark response with _ | ⟨preA, postA⟩
  · rw [containsL, hmA] at hA; simp at hA
  have hpa : persistedAnswer true lastAnswer response = trimL postA := by
    simp [persistedAnswer, processCoT, hmT, hmA]
  have hafter : afterFirstD answerMark response = postA := by
    simp [afterFirstD, hmA]
  rw [hafter] at hclean
  rw [hpa]
  cases hover : containsL thinkingMark (trimL postA) with
  | false => rfl
  | true =>
    have h2 := containsL_trimL thinkingMark postA hover
    simp [hclean] at h2

theorem c2_history_no_thinking_witness :
    containsL thinkingMark
      (persistedAnswer true [] (strL "Thinking: abc\nAnswer: xyz")) = false :=
  c2_history_no_thinking [] (strL "Thinking: abc\nAnswer: xyz")
    (by decide) (by decide) (by decide)

/- ----------------------------------------------------------------------
   C3: chat-controller.js `handleOpenAIMessage` streaming read loop
   ---------------------------------------------------------------------- -/

/-- One outcome of `reader.read()` inside the controller's `while (!done)`
loop: a decoded text chunk, or the rejection with an `AbortError` raised by
mid-stream cancellation.  End of stream (`doneReading`) is the end of the
event list. -/
inductive ReadEv where
  | chunk (s : List Char)
  | aborted

/-- The per-request mutable state of the read loop: the accumulated
`responseText` and the sequence of strings handed to the render surface via
`updateMessageContent` (the `onDelta` calls). -/
structure CtrlState where
  responseText : List Char
  displays : List (List Char)
deriving DecidableEq

/-- The display string computed for one updated buffer (lines 305-312 of the
controller: the CoT path formats the processed partial response, otherwise
the raw accumulated text is shown). -/
def displayOf (cot showT : Bool) (rt : List Char) : List Char :=
  if cot then formatForDisplay cot showT (processPartialCoT rt) else rt

/-- The `while (!done)` read loop of `handleOpenAIMessage` (streaming arm):
each chunk is appended to `responseText` and re-rendered; an `AbortError`
sets `done = true` and exits the loop at once, so the remaining events are
never read. -/
def runCtrlLoop (cot showT : Bool) : List ReadEv → CtrlState → CtrlState
  | [], st => st
  | ReadEv.aborted :: _, st => st
  | ReadEv.chunk s :: evs, st =>
    runCtrlLoop cot showT evs
      ⟨st.responseText ++ s, st.displays ++ [displayOf cot showT (st.responseText ++ s)]⟩

def initCtrl : CtrlState := ⟨[], []⟩

/-- What the chat history looks like after the streaming arm completes
(lines 322-328): regardless of how the loop ended — end of stream OR abort —
the accumulated text is processed and an assistant entry is pushed. -/
def historyAfterStream (cot showT : Bool) (lastAnswer : List Char)
    (hist : List ChatMsg) (evs : List ReadEv) : List ChatMsg :=
  hist ++ [⟨strL "ai",
    persistedAnswer cot lastAnswer (runCtrlLoop cot showT evs initCtrl).responseText⟩]

/-- C3 counterexample: cancelling after the chunk `"Hello"` arrived still
appends an assistant entry containing the partially accumulated text to chat
history — the exchange is NOT void and the partial text is NOT discarded. -/
theorem c3_abort_pushes_history :
    historyAfterStream false false [] []
        [ReadEv.chunk (strL "Hello"), ReadEv.aborted]
      = [⟨strL "ai", strL "Hello"⟩]
    ∧ (historyAfterStream false false [] []
        [ReadEv.chunk (strL "Hello"), ReadEv.aborted]).length = 1 := by
  exact ⟨by decide, by decide⟩

theorem runCtrlLoop_abort (cot showT : Bool) (post : List ReadEv) :
    ∀ (pre : List ReadEv) (st : CtrlState),
      runCtrlLoop cot showT (pre ++ ReadEv.aborted :: post) st
        = runCtrlLoop cot showT pre st := by
  intro pre
  induction pre with
  | nil => intro st; rfl
  | cons ev evs ih =>
    intro st
    cases ev with
    | chunk s =>
      rw [List.cons_append]
      rw [runCtrlLoop, runCtrlLoop]
      exact ih _
    | aborted => rfl

/-- C3 (amended): when the cancellation token fires mid-stream the read loop
stops immediately — the render surface receives exactly the display updates
issued before the abort and no further `onDelta` calls — but the exchange is
not void: the partially accumulated text is processed exactly like a
completed response and one assistant entry with that resolved answer is
appended to ChatHistory. -/
theorem c3_abort_stops_stream (cot showT : Bool) (lastAnswer : List Char)
    (hist : List ChatMsg) (pre post : List ReadEv) :
    runCtrlLoop cot showT (pre ++ ReadEv.aborted :: post) initCtrl
      = runCtrlLoop cot showT pre initCtrl
    ∧ historyAfterStream cot showT lastAnswer hist (pre ++ ReadEv.aborted :: post)
      = hist ++ [⟨strL "ai",
          persistedAnswer cot lastAnswer (runCtrlLoop cot showT pre initCtrl).responseText⟩]
    ∧ (historyAfterStream cot showT lastAnswer hist
        (pre ++ ReadEv.aborted :: post)).length = hist.length + 1 := by
  refine ⟨runCtrlLoop_abort cot showT post pre initCtrl, ?_, ?_⟩
  · unfold historyAfterStream
    rw [runCtrlLoop_abort cot showT post pre initCtrl]
  · unfold historyAfterStream
    simp

/- ----------------------------------------------------------------------
   Transport framing: the buffer-split loops of streamOpenAIRequest and
   streamGeminiRequest (api-service.js)
   ---------------------------------------------------------------------- -/

/-- Match one line terminator `\r?\n` at the head of the input (the separator
regexp of `buffer.split(/\r?\n/)`), returning the rest after it. -/
def stripNL (l : List Char) : Option (List Char) :=
  match l with
  | c :: cs =>
    if c = '\n' then some cs
    else if c = '\r' then
      match cs with
      | c2 :: cs2 => if c2 = '\n' then some cs2 else none
      | [] => none
    else none
  | [] => none

/-- Match one blank-line event separator `\r?\n\r?\n` at the head of the
input (the separator regexp of `eventBuffer.split(/\r?\n\r?\n/)`). -/
def matchSep (l : List Char) : Option (List Char) :=
  (stripNL l).bind stripNL

theorem stripNL_eq_some_iff (l r : List Char) :
    stripNL l = some r ↔ (l = '\n' :: r ∨ l = '\r' :: '\n' :: r) := by
  constructor
  · intro h
    cases l with
    | nil => simp [stripNL] at h
    | cons c cs =>
      by_cases h1 : c = '\n'
      · subst h1
        simp [stripNL] at h
        exact Or.inl (by rw [h])
      · by_cases h2 : c = '\r'
        · subst h2
          cases cs with
          | nil => simp [stripNL, h1] at h
          | cons c2 cs2 =>
            by_cases h3 : c2 = '\n'
            · subst h3
              simp [stripNL, h1] at h
              exact Or.inr (by rw [h])
            · simp [stripNL, h1, h3] at h
        · simp [stripNL, h1, h2] at h
  · rintro (rfl | rfl) <;> simp [stripNL]

theorem stripNL_shrink (l r : List Char) (h : stripNL l = some r) :
    r.length < l.length := by
  rcases (stripNL_eq_some_iff l r).1 h with rfl | rfl
  · simp
  · simp
    omega

theorem stripNL_append (l r u : List Char) (h : stripNL l = some r) :
    stripNL (l ++ u) = some (r ++ u) := by
  rcases (stripNL_eq_some_iff l r).1 h with rfl | rfl
  · exact (stripNL_eq_some_iff _ _).2 (Or.inl rfl)
  · exact (stripNL_eq_some_iff _ _).2 (Or.inr rfl)

theorem stripNL_flip (l u r : List Char) (h : stripNL l = none)
    (h2 : stripNL (l ++ u) = some r) : l = [] ∨ l = ['\r'] := by
  cases l with
  | nil => exact Or.inl rfl
  | cons c cs =>
    rcases (stripNL_eq_some_iff _ _).1 h2 with he | he
    · have hc : c = '\n' := by
        have := congrArg (fun x => x.head?) he
        simpa using this
      subst hc
      rw [(stripNL_eq_some_iff (('\n' : Char) :: cs) cs).2 (Or.inl rfl)] at h
      cases h
    · have hc : c = '\r' := by
        have := congrArg (fun x => x.head?) he
        simpa using this
      subst hc
      cases cs with
      | nil => exact Or.inr rfl
      | cons c2 cs2 =>
        have hc2 : c2 = '\n' := by
          have := congrArg (fun x => x.tail.head?) he
          simpa using this
        subst hc2
        rw [(stripNL_eq_some_iff (('\r' : Char) :: '\n' :: cs2) cs2).2 (Or.inr rfl)] at h
        cases h

theorem matchSep_shrink (l r : List Char) (h : matchSep l = some r) :
    r.length < l.length := by
  unfold matchSep at h
  rcases hmid : stripNL l with _ | mid
  · rw [hmid] at h; cases h
  · rw [hmid] at h
    simp at h
    exact Nat.lt_trans (stripNL_shrink mid r h) (stripNL_shrink l mid hmid)

theorem matchSep_append (l r u : List Char) (h : matchSep l = some r) :
    matchSep (l ++ u) = some (r ++ u) := by
  unfold matchSep at h ⊢
  rcases hmid : stripNL l with _ | mid
  · rw [hmid] at h; cases h
  · rw [hmid] at h
    simp at h
    rw [stripNL_append l mid u hmid]
    simpa using stripNL_append mid r u h

theorem matchSep_flip (c : Char) (cs u R : List Char)
    (h : matchSep (c :: cs) = none) (h2 : matchSep ((c :: cs) ++ u) = some R) :
    cs = [] ∨ cs = ['\n'] ∨ cs = ['\r'] ∨ cs = ['\n', '\r'] := by
  unfold matchSep at h h2
  rcases hmid : stripNL (c :: cs) with _ | mid
  · rw [hmid] at h
    rcases hmid2 : stripNL ((c :: cs) ++ u) with _ | mid2
    · rw [hmid2] at h2; cases h2
    · rcases stripNL_flip (c :: cs) u mid2 hmid hmid2 with he | he
      · cases he
      · exact Or.inl (by simpa using congrArg List.tail he)
  · rw [hmid] at h
    simp at h
    have happ : stripNL (c :: cs ++ u) = some (mid ++ u) := by
      simpa using stripNL_append (c :: cs) mid u hmid
    rw [happ] at h2
    simp at h2
    rcases stripNL_flip mid u R h h2 with he | he
    · subst he
      rcases (stripNL_eq_some_iff _ _).1 hmid with hl | hl
      · exact Or.inl (by simpa using congrArg List.tail hl)
      · exact Or.inr (Or.inl (by simpa using congrArg List.tail hl))
    · subst he
      rcases (stripNL_eq_some_iff _ _).1 hmid with hl | hl
      · exact Or.inr (Or.inr (Or.inl (by simpa using congrArg List.tail hl)))
      · exact Or.inr (Or.inr (Or.inr (by simpa using congrArg List.tail hl)))

/-- JS `String.prototype.split(regexp)` driven by a head matcher `m`: the
complete pieces (all segments before a separator) and the trailing segment
after the last separator.  `fuel` is the input length (one unit per consumed
character suffices since every separator match is nonempty). -/
def splitGo (m : List Char → Option (List Char)) : Nat → List Char → List (List Char) × List Char
  | 0, l => ([], l)
  | _ + 1, [] => ([], [])
  | n + 1, c :: cs =>
    match m (c :: cs) with
    | some rest =>
      let p := splitGo m n rest
      ([] :: p.1, p.2)
    | none =>
      let p := splitGo m n cs
      match p.1 with
      | [] => ([], c :: p.2)
      | e :: es => ((c :: e) :: es, p.2)

/-- `l.split(m)` as `(complete pieces, trailing remainder)`; JS's full split
result is `pieces ++ [remainder]`, and the framing loops `pop()` the
remainder back into the carry-over buffer. -/
def jsSplit (m : List Char → Option (List Char)) (l : List Char) :
    List (List Char) × List Char :=
  splitGo m l.length l

theorem splitGo_succ_cons (m : List Char → Option (List Char)) (n : Nat) (c : Char)
    (cs : List Char) :
    splitGo m (n + 1) (c :: cs) =
      match m (c :: cs) with
      | some rest => ([] :: (splitGo m n rest).1, (splitGo m n rest).2)
      | none =>
        match (splitGo m n cs).1 with
        | [] => ([], c :: (splitGo m n cs).2)
        | e :: es => ((c :: e) :: es, (splitGo m n cs).2) := by
  rw [splitGo]

theorem splitGo_fuel (m : List Char → Option (List Char))
    (hm : ∀ l r, m l = some r → r.length < l.length) :
    ∀ (n n' : Nat) (l : List Char), l.length ≤ n → l.length ≤ n' →
      splitGo m n l = splitGo m n' l := by
  intro n
  induction n with
  | zero =>
    intro n' l h h'
    have hl : l = [] := List.length_eq_zero.mp (Nat.le_zero.mp h)
    subst hl
    cases n' with
    | zero => rfl
    | succ k => rfl
  | succ n ih =>
    intro n' l h h'
    cases l with
    | nil =>
      cases n' with
      | zero => rfl
      | succ k => rfl
    | cons c cs =>
      cases n' with
      | zero => simp at h'
      | succ k =>
        rw [splitGo_succ_cons, splitGo_succ_cons]
        have hcs : cs.length ≤ n := by simp at h; omega
        have hcs' : cs.length ≤ k := by simp at h'; omega
        rcases hm' : m (c :: cs) with _ | rest
        · dsimp only
          rw [ih k cs hcs hcs']
        · dsimp only
          have hr : rest.length ≤ n := by
            have := hm _ _ hm'
            simp at this
            omega
          have hr' : rest.length ≤ k := by
            have := hm _ _ hm'
            simp at this
            omega
          rw [ih k rest hr hr']

theorem jsSplit_nil (m : List Char → Option (List Char)) : jsSplit m [] = ([], []) := rfl

theorem jsSplit_cons (m : List Char → Option (List Char))
    (hm : ∀ l r, m l = some r → r.length < l.length) (c : Char) (cs : List Char) :
    jsSplit m (c :: cs) =
      match m (c :: cs) with
      | some rest => ([] :: (jsSplit m rest).1, (jsSplit m rest).2)
      | none =>
        match (jsSplit m cs).1 with
        | [] => ([], c :: (jsSplit m cs).2)
        | e :: es => ((c :: e) :: es, (jsSplit m cs).2) := by
  show splitGo m (cs.length + 1) (c :: cs) = _
  rw [splitGo_succ_cons]
  rcases hm' : m (c :: cs) with _ | rest
  · rfl
  · dsimp only
    have hr : rest.length ≤ cs.length := by
      have := hm _ _ hm'
      simp at this
      omega
    have heq : splitGo m cs.length rest = jsSplit m rest :=
      splitGo_fuel m hm cs.length rest.length rest hr le_rfl
    rw [heq]

theorem jsSplit_cons_some (m : List Char → Option (List Char))
    (hm : ∀ l r, m l = some r → r.length < l.length) (c : Char) (cs rest : List Char)
    (hm' : m (c :: cs) = some rest) :
    jsSplit m (c :: cs) = ([] :: (jsSplit m rest).1, (jsSplit m rest).2) := by
  rw [jsSplit_cons m hm, hm']

theorem jsSplit_cons_none_nil (m : List Char → Option (List Char))
    (hm : ∀ l r, m l = some r → r.length < l.length) (c : Char) (cs : List Char)
    (hm' : m (c :: cs) = none) (hev : (jsSplit m cs).1 = []) :
    jsSplit m (c :: cs) = ([], c :: (jsSplit m cs).2) := by
  rw [jsSplit_cons m hm, hm']
  dsimp only
  rw [hev]

theorem jsSplit_cons_none_cons (m : List Char → Option (List Char))
    (hm : ∀ l r, m l = some r → r.length < l.length) (c : Char) (cs : List Char)
    (e : List Char) (es : List (List Char))
    (hm' : m (c :: cs) = none) (hev : (jsSplit m cs).1 = e :: es) :
    jsSplit m (c :: cs) = ((c :: e) :: es, (jsSplit m cs).2) := by
  rw [jsSplit_cons m hm, hm']
  dsimp only
  rw [hev]

theorem jsSplit_no_events (m : List Char → Option (List Char))
    (hm : ∀ l r, m l = some r → r.length < l.length) :
    ∀ (N : Nat) (l : List Char), l.length ≤ N →
      (jsSplit m l).1 = [] → (jsSplit m l).2 = l := by
  intro N
  induction N with
  | zero =>
    intro l hl _
    have : l = [] := List.length_eq_zero.mp (Nat.le_zero.mp hl)
    subst this
    rfl
  | succ N ih =>
    intro l hl h1
    cases l with
    | nil => rfl
    | cons c cs =>
      have hcs : cs.length ≤ N := by simp at hl; omega
      rcases hm' : m (c :: cs) with _ | rest
      · rcases hev : (jsSplit m cs).1 with _ | ⟨e, es⟩
        · rw [jsSplit_cons_none_nil m hm c cs hm' hev]
          rw [ih cs hcs hev]
        · rw [jsSplit_cons_none_cons m hm c cs e es hm' hev] at h1
          simp at h1
      · rw [jsSplit_cons_some m hm c cs rest hm'] at h1
        simp at h1

theorem jsSplit_tail_fixed (m : List Char → Option (List Char))
    (hm : ∀ l r, m l = some r → r.length < l.length) :
    ∀ (N : Nat) (l : List Char), l.length ≤ N →
      jsSplit m ((jsSplit m l).2) = ([], (jsSplit m l).2) := by
  intro N
  induction N with
  | zero =>
    intro l hl
    have : l = [] := List.length_eq_zero.mp (Nat.le_zero.mp hl)
    subst this
    rfl
  | succ N ih =>
    intro l hl
    cases l with
    | nil => rfl
    | cons c cs =>
      have hcs : cs.length ≤ N := by simp at hl; omega
      rcases hm' : m (c :: cs) with _ | rest
      · rcases hev : (jsSplit m cs).1 with _ | ⟨e, es⟩
        · have htail : (jsSplit m cs).2 = cs := jsSplit_no_events m hm N cs hcs hev
          rw [jsSplit_cons_none_nil m hm c cs hm' hev]
          dsimp only
          rw [htail, jsSplit_cons_none_nil m hm c cs hm' hev, htail]
        · rw [jsSplit_cons_none_cons m hm c cs e es hm' hev]
          dsimp only
          exact ih cs hcs
      · have hrest : rest.length ≤ N := by
          have := hm _ _ hm'
          simp at this hl
          omega
        rw [jsSplit_cons_some m hm c cs rest hm']
        dsimp only
        exact ih rest hrest

theorem jsSplit_append (m : List Char → Option (List Char))
    (hm : ∀ l r, m l = some r → r.length < l.length)
    (hstab : ∀ l r u, m l = some r → m (l ++ u) = some (r ++ u))
    (hflip : ∀ c cs u R, m (c :: cs) = none → m ((c :: cs) ++ u) = some R →
      (jsSplit m cs).1 = []) :
    ∀ (N : Nat) (l u : List Char), l.length ≤ N →
      jsSplit m (l ++ u)
        = ((jsSplit m l).1 ++ (jsSplit m ((jsSplit m l).2 ++ u)).1,
           (jsSplit m ((jsSplit m l).2 ++ u)).2) := by
  intro N
  induction N with
  | zero =>
    intro l u hl
    have : l = [] := List.length_eq_zero.mp (Nat.le_zero.mp hl)
    subst this
    simp [jsSplit_nil]
  | succ N ih =>
    intro l u hl
    cases l with
    | nil => simp [jsSplit_nil]
    | cons c cs =>
      have hcs : cs.length ≤ N := by simp at hl; omega
      rcases hm' : m (c :: cs) with _ | rest
      · rcases hev : (jsSplit m cs).1 with _ | ⟨e, es⟩
        · have htail : (jsSplit m cs).2 = cs := jsSplit_no_events m hm N cs hcs hev
          have hsplit : jsSplit m (c :: cs) = ([], c :: cs) := by
            rw [jsSplit_cons_none_nil m hm c cs hm' hev, htail]
          rw [hsplit]
          simp
        · have hx : m (c :: (cs ++ u)) = none := by
            rcases hx2 : m (c :: (cs ++ u)) with _ | R
            · rfl
            · have hcontra : (jsSplit m cs).1 = [] := by
                refine hflip c cs u R hm' ?_
                simpa using hx2
              rw [hev] at hcontra
              cases hcontra
          have ihcs := ih cs u hcs
          have hev2 : (jsSplit m (cs ++ u)).1
              = e :: (es ++ (jsSplit m ((jsSplit m cs).2 ++ u)).1) := by
            rw [ihcs, hev]
            rfl
          have hLHS := jsSplit_cons_none_cons m hm c (cs ++ u) _ _ hx hev2
          have hR := jsSplit_cons_none_cons m hm c cs e es hm' hev
          rw [List.cons_append, hLHS, hR, ihcs]
          simp
      · have hstab' : m (c :: (cs ++ u)) = some (rest ++ u) := by
          simpa using hstab _ _ u hm'
        have hrest : rest.length ≤ N := by
          have := hm _ _ hm'
          simp at this hl
          omega
        have hLHS := jsSplit_cons_some m hm c (cs ++ u) (rest ++ u) hstab'
        have hR := jsSplit_cons_some m hm c cs rest hm'
        rw [List.cons_append, hLHS, hR, ih rest u hrest]
        simp

/- ----------------------------------------------------------------------
   The streaming read loops (generic over the two wire formats)
   ---------------------------------------------------------------------- -/

/-- StreamState of one in-flight request: the carry-over partial buffer, the
accumulated `fullReply`, the arguments of the `onChunk` delta callbacks in
order, and the `done` flag (set by `[DONE]`; a set flag stops the loop). -/
structure StreamSt where
  buffer : List Char
  fullReply : List Char
  outs : List (List Char)
  done : Bool
deriving DecidableEq

def setBuf (st : StreamSt) (b : List Char) : StreamSt :=
  { st with buffer := b }

def initStream : StreamSt := ⟨[], [], [], false⟩

/-- One iteration of the `while (!done)` read loop, shared shape of
`streamOpenAIRequest` and `streamGeminiRequest`: append the decoded chunk to
the carry-over buffer, split off the complete frames (keeping the trailing
remainder as the new buffer) and feed them to the per-frame handler `step`. -/
def processChunk (m : List Char → Option (List Char))
    (step : StreamSt → List Char → StreamSt) (st : StreamSt) (chunk : List Char) :
    StreamSt :=
  if st.done then st
  else
    (jsSplit m (st.buffer ++ chunk)).1.foldl step
      (setBuf st (jsSplit m (st.buffer ++ chunk)).2)

/-- The whole streaming loop over a sequence of reads; the trailing
`processChunk … []` is the final read that reports end-of-stream: it decodes
with `{stream: false}`, appends nothing, and re-splits the leftover buffer
(whose retained partial frame is NOT treated as a complete frame). -/
def runStream (m : List Char → Option (List Char))
    (step : StreamSt → List Char → StreamSt) (chunks : List (List Char)) : StreamSt :=
  processChunk m step (chunks.foldl (processChunk m step) initStream) []

/-- States that agree on everything a caller can observe after the loop ends
(the buffer is dead state once `done` is set). -/
def StreamSt.equiv (a b : StreamSt) : Prop :=
  a.fullReply = b.fullReply ∧ a.outs = b.outs ∧ a.done = b.done ∧
    (a.done = false → a.buffer = b.buffer)

theorem StreamSt.equiv_refl (a : StreamSt) : StreamSt.equiv a a :=
  ⟨rfl, rfl, rfl, fun _ => rfl⟩

theorem StreamSt.equiv_symm {a b : StreamSt} (h : StreamSt.equiv a b) :
    StreamSt.equiv b a := by
  obtain ⟨h1, h2, h3, h4⟩ := h
  exact ⟨h1.symm, h2.symm, h3.symm, fun hd => (h4 (h3.trans hd)).symm⟩

theorem StreamSt.equiv_trans {a b c : StreamSt} (h1 : StreamSt.equiv a b)
    (h2 : StreamSt.equiv b c) : StreamSt.equiv a c := by
  obtain ⟨a1, a2, a3, a4⟩ := h1
  obtain ⟨b1, b2, b3, b4⟩ := h2
  exact ⟨a1.trans b1, a2.trans b2, a3.trans b3,
    fun hd => (a4 hd).trans (b4 (a3.symm.trans hd))⟩

theorem StreamSt.equiv_eq {a b : StreamSt} (h : StreamSt.equiv a b)
    (hd : a.done = false) : a = b := by
  obtain ⟨h1, h2, h3, h4⟩ := h
  have hb := h4 hd
  cases a
  cases b
  simp only [StreamSt.mk.injEq]
  exact ⟨hb, h1, h2, h3⟩

theorem foldl_step_setBuf (step : StreamSt → List Char → StreamSt)
    (hs1 : ∀ st b fr, step (setBuf st b) fr = setBuf (step st fr) b) :
    ∀ (evs : List (List Char)) (st : StreamSt) (b : List Char),
      evs.foldl step (setBuf st b) = setBuf (evs.foldl step st) b := by
  intro evs
  induction evs with
  | nil => intro st b; rfl
  | cons e es ih =>
    intro st b
    rw [List.foldl_cons, List.foldl_cons, hs1, ih]

theorem foldl_step_done (step : StreamSt → List Char → StreamSt)
    (hs2 : ∀ st fr, st.done = true → step st fr = st) :
    ∀ (evs : List (List Char)) (st : StreamSt), st.done = true →
      evs.foldl step st = st := by
  intro evs
  induction evs with
  | nil => intro st _; rfl
  | cons e es ih =>
    intro st hd
    rw [List.foldl_cons, hs2 st e hd, ih st hd]

theorem setBuf_done (st : StreamSt) (b : List Char) : (setBuf st b).done = st.done := rfl

theorem setBuf_buffer (st : StreamSt) (b : List Char) : (setBuf st b).buffer = b := rfl

theorem setBuf_setBuf (st : StreamSt) (b b' : List Char) :
    setBuf (setBuf st b) b' = setBuf st b' := rfl

/-- Processing chunk `a` and then chunk `b` is observationally the same as
processing `a ++ b` at once. -/
theorem processChunk_append (m : List Char → Option (List Char))
    (step : StreamSt → List Char → StreamSt)
    (hm : ∀ l r, m l = some r → r.length < l.length)
    (hstab : ∀ l r u, m l = some r → m (l ++ u) = some (r ++ u))
    (hflip : ∀ c cs u R, m (c :: cs) = none → m ((c :: cs) ++ u) = some R →
      (jsSplit m cs).1 = [])
    (hs1 : ∀ st b fr, step (setBuf st b) fr = setBuf (step st fr) b)
    (hs2 : ∀ st fr, st.done = true → step st fr = st)
    (st : StreamSt) (a b : List Char) :
    StreamSt.equiv (processChunk m step (processChunk m step st a) b)
      (processChunk m step st (a ++ b)) := by
  by_cases hd : st.done = true
  · have ha : processChunk m step st a = st := by rw [processChunk, if_pos hd]
    have hb2 : processChunk m step st b = st := by rw [processChunk, if_pos hd]
    have hab : processChunk m step st (a ++ b) = st := by rw [processChunk, if_pos hd]
    rw [ha, hb2, hab]
    exact StreamSt.equiv_refl st
  · have hsplit := jsSplit_append m hm hstab hflip (st.buffer ++ a).length
      (st.buffer ++ a) b le_rfl
    set s1 := jsSplit m (st.buffer ++ a) with hs1def
    set s2 := jsSplit m (s1.2 ++ b) with hs2def
    have hA : processChunk m step st a = setBuf (s1.1.foldl step st) s1.2 := by
      rw [processChunk, if_neg hd]
      exact foldl_step_setBuf step hs1 s1.1 st s1.2
    have hAB : processChunk m step st (a ++ b)
        = setBuf (s2.1.foldl step (s1.1.foldl step st)) s2.2 := by
      rw [processChunk, if_neg hd]
      have hassoc : st.buffer ++ (a ++ b) = (st.buffer ++ a) ++ b :=
        (List.append_assoc _ _ _).symm
      rw [hassoc, hsplit]
      dsimp only
      rw [List.foldl_append]
      rw [foldl_step_setBuf step hs1 _ st s2.2, foldl_step_setBuf step hs1 s2.1 _ s2.2]
    set T := s1.1.foldl step st with hTdef
    by_cases hTd : T.done = true
    · rw [hA]
      rw [processChunk, if_pos (show (setBuf T s1.2).done = true by
        rw [setBuf_done]; exact hTd)]
      rw [hAB, foldl_step_done step hs2 s2.1 T hTd]
      refine ⟨rfl, rfl, rfl, fun hcon => ?_⟩
      rw [setBuf_done, hTd] at hcon
      cases hcon
    · rw [hA]
      rw [processChunk, if_neg (show ¬(setBuf T s1.2).done = true by
        rw [setBuf_done]; exact hTd)]
      rw [setBuf_buffer]
      rw [← hs2def]
      rw [setBuf_setBuf]
      rw [foldl_step_setBuf step hs1 s2.1 T s2.2]
      rw [hAB]
      exact StreamSt.equiv_refl _

theorem processChunk_respects_equiv (m : List Char → Option (List Char))
    (step : StreamSt → List Char → StreamSt) {a b : StreamSt}
    (hab : StreamSt.equiv a b) (c : List Char) :
    StreamSt.equiv (processChunk m step a c) (processChunk m step b c) := by
  by_cases hd : a.done = true
  · have hbd : b.done = true := hab.2.2.1 ▸ hd
    rw [processChunk, if_pos hd, processChunk, if_pos hbd]
    exact hab
  · have hd' : a.done = false := by
      cases hdv : a.done
      · rfl
      · exact absurd hdv hd
    rw [StreamSt.equiv_eq hab hd']
    exact StreamSt.equiv_refl _

theorem runStream_foldl_join (m : List Char → Option (List Char))
    (step : StreamSt → List Char → StreamSt)
    (hm : ∀ l r, m l = some r → r.length < l.length)
    (hstab : ∀ l r u, m l = some r → m (l ++ u) = some (r ++ u))
    (hflip : ∀ c cs u R, m (c :: cs) = none → m ((c :: cs) ++ u) = some R →
      (jsSplit m cs).1 = [])
    (hs1 : ∀ st b fr, step (setBuf st b) fr = setBuf (step st fr) b)
    (hs2 : ∀ st fr, st.done = true → step st fr = st) :
    ∀ (chunks : List (List Char)) (st : StreamSt),
      StreamSt.equiv (processChunk m step (chunks.foldl (processChunk m step) st) [])
        (processChunk m step (processChunk m step st chunks.flatten) []) := by
  intro chunks
  induction chunks with
  | nil =>
    intro st
    exact StreamSt.equiv_symm
      (processChunk_append m step hm hstab hflip hs1 hs2 st [] [])
  | cons c cs ih =>
    intro st
    refine StreamSt.equiv_trans (ih (processChunk m step st c)) ?_
    have h1 := processChunk_append m step hm hstab hflip hs1 hs2 st c cs.flatten
    exact processChunk_respects_equiv m step h1 []

/-- Any splitting of the byte stream into read chunks is observationally the
same as a single whole-body read. -/
theorem runStream_join (m : List Char → Option (List Char))
    (step : StreamSt → List Char → StreamSt)
    (hm : ∀ l r, m l = some r → r.length < l.length)
    (hstab : ∀ l r u, m l = some r → m (l ++ u) = some (r ++ u))
    (hflip : ∀ c cs u R, m (c :: cs) = none → m ((c :: cs) ++ u) = some R →
      (jsSplit m cs).1 = [])
    (hs1 : ∀ st b fr, step (setBuf st b) fr = setBuf (step st fr) b)
    (hs2 : ∀ st fr, st.done = true → step st fr = st)
    (chunks : List (List Char)) :
    StreamSt.equiv (runStream m step chunks) (runStream m step [chunks.flatten]) :=
  runStream_foldl_join m step hm hstab hflip hs1 hs2 chunks initStream

theorem stripNL_jsFlip (c : Char) (cs u R : List Char) (h : stripNL (c :: cs) = none)
    (h2 : stripNL ((c :: cs) ++ u) = some R) : (jsSplit stripNL cs).1 = [] := by
  rcases stripNL_flip (c :: cs) u R h h2 with he | he
  · cases he
  · have : cs = [] := by simpa using congrArg List.tail he
    subst this
    rfl

theorem matchSep_jsFlip (c : Char) (cs u R : List Char) (h : matchSep (c :: cs) = none)
    (h2 : matchSep ((c :: cs) ++ u) = some R) : (jsSplit matchSep cs).1 = [] := by
  rcases matchSep_flip c cs u R h h2 with he | he | he | he <;> subst he <;> decide

/- ----------------------------------------------------------------------
   Provider A (OpenAI chat-completions SSE): parseSSELine + delta extraction
   ---------------------------------------------------------------------- -/

inductive SSERes where
  | done
  | delta (d : List Char)
  | skip

/-- utils.js `parseSSELine` combined with the `choices?.[0]?.delta` access of
`streamOpenAIRequest`: a line must carry the `data: ` marker; the payload
`[DONE]` (after trim) signals completion; otherwise `jd` stands for
`JSON.parse` followed by the `choices[0].delta.content` path — `none` models
a JSON parse failure (caught and logged, never fatal) or a missing field. -/
def parseSSELineM (jd : List Char → Option (List Char)) (line : List Char) : SSERes :=
  if hasPrefixL (strL "data: ") line then
    if trimL (line.drop 6) = strL "[DONE]" then SSERes.done
    else
      match jd (trimL (line.drop 6)) with
      | some d => SSERes.delta d
      | none => SSERes.skip
  else SSERes.skip

/-- Handling of one SSE line of `streamOpenAIRequest`: `[DONE]` sets the done
flag (breaking the loops); a nonempty delta is appended to `fullReply` and
passed to `onChunk`; empty/missing content and unparseable lines are
skipped. -/
def stepLineO (jd : List Char → Option (List Char)) (st : StreamSt) (line : List Char) :
    StreamSt :=
  if st.done then st
  else
    match parseSSELineM jd line with
    | SSERes.done => { st with done := true }
    | SSERes.delta d =>
      if d = [] then st
      else { st with fullReply := st.fullReply ++ d, outs := st.outs ++ [d] }
    | SSERes.skip => st

/-- Handling of one complete SSE event block: `ev.split(/\r?\n/)` (yielding
the complete lines plus the final segment) and the line loop over them. -/
def stepEventO (jd : List Char → Option (List Char)) (st : StreamSt) (ev : List Char) :
    StreamSt :=
  ((jsSplit stripNL ev).1 ++ [(jsSplit stripNL ev).2]).foldl (stepLineO jd) st

/-- The full `streamOpenAIRequest` read loop: blank-line framing over the
chunk sequence, SSE event handling per frame. -/
def runO (jd : List Char → Option (List Char)) (chunks : List (List Char)) : StreamSt :=
  runStream matchSep (stepEventO jd) chunks

theorem stepLineO_setBuf (jd : List Char → Option (List Char)) (st : StreamSt)
    (b line : List Char) :
    stepLineO jd (setBuf st b) line = setBuf (stepLineO jd st line) b := by
  by_cases hd : st.done = true
  · simp [stepLineO, setBuf, hd]
  · cases hp : parseSSELineM jd line with
    | done => simp [stepLineO, setBuf, hd, hp]
    | delta d =>
      by_cases hdel : d = [] <;> simp [stepLineO, setBuf, hd, hp, hdel]
    | skip => simp [stepLineO, setBuf, hd, hp]

theorem stepLineO_done (jd : List Char → Option (List Char)) (st : StreamSt)
    (line : List Char) (hd : st.done = true) : stepLineO jd st line = st := by
  simp [stepLineO, hd]

theorem stepEventO_setBuf (jd : List Char → Option (List Char)) (st : StreamSt)
    (b ev : List Char) :
    stepEventO jd (setBuf st b) ev = setBuf (stepEventO jd st ev) b :=
  foldl_step_setBuf (stepLineO jd) (stepLineO_setBuf jd) _ st b

theorem stepEventO_done (jd : List Char → Option (List Char)) (st : StreamSt)
    (ev : List Char) (hd : st.done = true) : stepEventO jd st ev = st :=
  foldl_step_done (stepLineO jd) (fun s fr h => stepLineO_done jd s fr h) _ st hd

/- ----------------------------------------------------------------------
   Provider B (Gemini streamGenerateContent SSE): last-part delta extraction
   ---------------------------------------------------------------------- -/

/-- One element of `candidates[0].content.parts` (its optional `text`). -/
structure GemPart where
  text : Option (List Char)
deriving DecidableEq

structure GemContent where
  parts : List GemPart
deriving DecidableEq

structure GemCand where
  content : Option GemContent
deriving DecidableEq

/-- A parsed Gemini streaming frame (the fields the loop reads). -/
structure GemChunk where
  candidates : List GemCand
deriving DecidableEq

/-- `parsed.candidates?.[0]?.content?.parts || []`. -/
def partsOf (c : GemChunk) : List GemPart :=
  match c.candidates.head? with
  | some cand =>
    match cand.content with
    | some ct => ct.parts
    | none => []
  | none => []

/-- `parts[parts.length - 1]?.text || ''` — the text of the LAST part, the
empty string when parts is empty or the last part has no text. -/
def extractGeminiDelta (c : GemChunk) : List Char :=
  match (partsOf c).getLast? with
  | some p =>
    match p.text with
    | some t => t
    | none => []
  | none => []

/-- Handling of one newline-delimited line of `streamGeminiRequest`: only
`data: ` lines are considered; `[DONE]` (after trim) completes the stream;
otherwise `jd` stands for `JSON.parse` into the frame structure — `none`
models the caught `Stream parsing error` — and the extracted (possibly
empty) last-part text is appended to `fullReply` and passed to `onChunk`. -/
def stepLineG (jd : List Char → Option GemChunk) (st : StreamSt) (line : List Char) :
    StreamSt :=
  if st.done then st
  else if hasPrefixL (strL "data: ") line then
    if trimL (line.drop 6) = strL "[DONE]" then { st with done := true }
    else
      match jd (trimL (line.drop 6)) with
      | some c =>
        { st with fullReply := st.fullReply ++ extractGeminiDelta c,
                  outs := st.outs ++ [extractGeminiDelta c] }
      | none => st
  else st

/-- The full `streamGeminiRequest` read loop: single-newline framing, line
handling per frame. -/
def runG (jd : List Char → Option GemChunk) (chunks : List (List Char)) : StreamSt :=
  runStream stripNL (stepLineG jd) chunks

theorem stepLineG_setBuf (jd : List Char → Option GemChunk) (st : StreamSt)
    (b line : List Char) :
    stepLineG jd (setBuf st b) line = setBuf (stepLineG jd st line) b := by
  by_cases hd : st.done = true
  · simp [stepLineG, setBuf, hd]
  · by_cases hpre : hasPrefixL (strL "data: ") line = true
    · by_cases hdn : trimL (line.drop 6) = strL "[DONE]"
      · simp [stepLineG, setBuf, hd, hpre, hdn]
      · cases hj : jd (trimL (line.drop 6)) with
        | none => simp [stepLineG, setBuf, hd, hpre, hdn, hj]
        | some c => simp [stepLineG, setBuf, hd, hpre, hdn, hj]
    · simp [stepLineG, setBuf, hd, hpre]

theorem stepLineG_done (jd : List Char → Option GemChunk) (st : StreamSt)
    (line : List Char) (hd : st.done = true) : stepLineG jd st line = st := by
  simp [stepLineG, hd]

/-- C5: for every full response body and every way of splitting it into read
chunks (one-byte reads up to a single whole-body read), both streaming loops
reconstruct the identical final text (and the identical onChunk call
sequence) — framing is invariant under chunk boundaries, for the blank-line
SSE framing of `streamOpenAIRequest` and the newline framing of
`streamGeminiRequest`, for every JSON payload interpretation `jd`. -/
theorem c5_chunk_boundary_invariance (jdO : List Char → Option (List Char))
    (jdG : List Char → Option GemChunk) (chunks : List (List Char)) :
    (runO jdO chunks).fullReply = (runO jdO [chunks.flatten]).fullReply
    ∧ (runO jdO chunks).outs = (runO jdO [chunks.flatten]).outs
    ∧ (runG jdG chunks).fullReply = (runG jdG [chunks.flatten]).fullReply
    ∧ (runG jdG chunks).outs = (runG jdG [chunks.flatten]).outs := by
  have hO := runStream_join matchSep (stepEventO jdO) matchSep_shrink matchSep_append
    matchSep_jsFlip (stepEventO_setBuf jdO) (stepEventO_done jdO) chunks
  have hG := runStream_join stripNL (stepLineG jdG) stripNL_shrink stripNL_append
    stripNL_jsFlip (stepLineG_setBuf jdG) (stepLineG_done jdG) chunks
  exact ⟨hO.1, hO.2.1, hG.1, hG.2.1⟩

/-- C6: in both streaming loops, a frame whose payload is malformed JSON
(`jd` returns none — both sources catch the exception and log it) is
skipped: `parseSSELine` classifies the OpenAI line as unparseable, the line
leaves the loop state untouched, and the remaining frames of the stream are
processed exactly as if the malformed frame were absent; likewise for the
Gemini handler.  Both step functions are total: no frame content can fail
the request. -/
theorem c6_malformed_frame_skipped (jdO : List Char → Option (List Char))
    (jdG : List Char → Option GemChunk) (stO stG : StreamSt)
    (preO postO preG postG : List (List Char)) (badO badG : List Char)
    (hdataO : hasPrefixL (strL "data: ") badO = true)
    (hndO : trimL (badO.drop 6) ≠ strL "[DONE]")
    (hjdO : jdO (trimL (badO.drop 6)) = none)
    (hdataG : hasPrefixL (strL "data: ") badG = true)
    (hndG : trimL (badG.drop 6) ≠ strL "[DONE]")
    (hjdG : jdG (trimL (badG.drop 6)) = none) :
    parseSSELineM jdO badO = SSERes.skip
    ∧ (preO ++ badO :: postO).foldl (stepLineO jdO) stO
      = (preO ++ postO).foldl (stepLineO jdO) stO
    ∧ stepLineO jdO stO badO = stO
    ∧ (preG ++ badG :: postG).foldl (stepLineG jdG) stG
      = (preG ++ postG).foldl (stepLineG jdG) stG
    ∧ stepLineG jdG stG badG = stG := by
  have hparse : parseSSELineM jdO badO = SSERes.skip := by
    simp [parseSSELineM, hdataO, hndO, hjdO]
  have hskipO : ∀ s : StreamSt, stepLineO jdO s badO = s := by
    intro s
    by_cases hd : s.done = true
    · simp [stepLineO, hd]
    · simp [stepLineO, hd, hparse]
  have hskipG : ∀ s : StreamSt, stepLineG jdG s badG = s := by
    intro s
    by_cases hd : s.done = true
    · simp [stepLineG, hd]
    · simp [stepLineG, hd, hdataG, hndG, hjdG]
  refine ⟨hparse, ?_, hskipO stO, ?_, hskipG stG⟩
  · rw [List.foldl_append, List.foldl_append, List.foldl_cons, hskipO]
  · rw [List.foldl_append, List.foldl_append, List.foldl_cons, hskipG]

/- Concrete test data for the witnesses of the streaming claims. -/

def gemHello : GemChunk := ⟨[⟨some ⟨[⟨some (strL "Hello")⟩]⟩⟩]⟩

def gemTwoParts : GemChunk :=
  ⟨[⟨some ⟨[⟨some (strL "first")⟩, ⟨some (strL "second")⟩]⟩⟩]⟩

/-- A concrete JSON interpretation used by witnesses: payload `one` is a
single-part frame, payload `two` a two-part frame, anything else malformed. -/
def jdTest : List Char → Option GemChunk :=
  fun s =>
    if s = strL "one" then some gemHello
    else if s = strL "two" then some gemTwoParts
    else none

/-- A concrete OpenAI-side JSON interpretation used by witnesses: payload
`ok` carries the delta `Hi`, anything else is malformed or missing. -/
def jdOTest : List Char → Option (List Char) :=
  fun s => if s = strL "ok" then some (strL "Hi") else none

theorem c6_malformed_frame_skipped_witness :
    parseSSELineM jdOTest (strL "data: bad") = SSERes.skip
    ∧ ([strL "data: bad", strL "data: ok"].foldl (stepLineO jdOTest) initStream)
      = ([strL "data: ok"].foldl (stepLineO jdOTest) initStream)
    ∧ stepLineO jdOTest initStream (strL "data: bad") = initStream
    ∧ ([strL "data: bad", strL "data: one"].foldl (stepLineG jdTest) initStream)
      = ([strL "data: one"].foldl (stepLineG jdTest) initStream)
    ∧ stepLineG jdTest initStream (strL "data: bad") = initStream :=
  c6_malformed_frame_skipped jdOTest jdTest initStream initStream
    [] [strL "data: ok"] [] [strL "data: one"] (strL "data: bad") (strL "data: bad")
    (by decide) (by decide) (by decide) (by decide) (by decide) (by decide)

/-- C7: for every Provider B streaming frame that parses as JSON, the delta
extracted is the text of the LAST element of `candidates[0].content.parts`;
a frame with no parts contributes the empty delta (a skip for `fullReply`,
never an error). -/
theorem c7_gemini_last_part (jd : List Char → Option GemChunk) (st : StreamSt)
    (line : List Char) (c : GemChunk)
    (hdone : st.done = false)
    (hdata : hasPrefixL (strL "data: ") line = true)
    (hnd : trimL (line.drop 6) ≠ strL "[DONE]")
    (hjd : jd (trimL (line.drop 6)) = some c) :
    (∀ ps p, partsOf c = ps ++ [p] →
      stepLineG jd st line
        = { st with fullReply := st.fullReply ++ p.text.getD [],
                    outs := st.outs ++ [p.text.getD []] })
    ∧ (partsOf c = [] →
      (stepLineG jd st line).fullReply = st.fullReply) := by
  have hstep : stepLineG jd st line
      = { st with fullReply := st.fullReply ++ extractGeminiDelta c,
                  outs := st.outs ++ [extractGeminiDelta c] } := by
    simp [stepLineG, hdone, hdata, hnd, hjd]
  constructor
  · intro ps p hps
    have hex : extractGeminiDelta c = p.text.getD [] := by
      unfold extractGeminiDelta
      rw [hps, List.getLast?_concat]
      dsimp only
      cases hpt : p.text <;> rfl
    rw [hstep, hex]
  · intro hps
    have hex : extractGeminiDelta c = [] := by
      unfold extractGeminiDelta
      rw [hps]
      rfl
    rw [hstep, hex]
    simp

theorem c7_gemini_last_part_witness :
    stepLineG jdTest initStream (strL "data: two")
      = { initStream with fullReply := strL "second", outs := [strL "second"] }
    ∧ extractGeminiDelta gemTwoParts = strL "second"
    ∧ strL "second" ≠ strL "first" := by
  refine ⟨?_, by decide, by decide⟩
  have h := (c7_gemini_last_part jdTest initStream (strL "data: two") gemTwoParts
    rfl (by decide) (by decide) (by decide)).1
    [⟨some (strL "first")⟩] ⟨some (strL "second")⟩ (by decide)
  rw [h]
  decide

/-- C8 counterexample: a stream whose body ends with a complete `data:` frame
but NO trailing newline loses that frame: the retained partial buffer is
silently dropped at end-of-stream, while the same body with a trailing
newline decodes it.  End-of-input is NOT an implicit frame terminator. -/
theorem c8_trailing_frame_dropped :
    (runG jdTest [strL "data: one"]).fullReply = []
    ∧ (runG jdTest [strL "data: one\n"]).fullReply = strL "Hello" := by
  exact ⟨by decide, by decide⟩

/-- C8 (amended): trailing data `t` after the last line terminator (none of
whose characters completes a line, given the retained tail of `s`) is kept in
the carry-over buffer but never decoded: the loop's final text and delta
sequence are those of the stream without `t`. -/
theorem runStream_trailing (m : List Char → Option (List Char))
    (step : StreamSt → List Char → StreamSt)
    (hm : ∀ l r, m l = some r → r.length < l.length)
    (hstab : ∀ l r u, m l = some r → m (l ++ u) = some (r ++ u))
    (hflip : ∀ c cs u R, m (c :: cs) = none → m ((c :: cs) ++ u) = some R →
      (jsSplit m cs).1 = [])
    (hs1 : ∀ st b fr, step (setBuf st b) fr = setBuf (step st fr) b)
    (s t : List Char)
    (ht : (jsSplit m ((jsSplit m s).2 ++ t)).1 = []) :
    (runStream m step [s ++ t]).fullReply = (runStream m step [s]).fullReply
    ∧ (runStream m step [s ++ t]).outs = (runStream m step [s]).outs := by
  have hsp := jsSplit_append m hm hstab hflip s.length s t le_rfl
  rw [ht, List.append_nil] at hsp
  have h1 : processChunk m step initStream (s ++ t)
      = setBuf ((jsSplit m s).1.foldl step initStream)
          (jsSplit m ((jsSplit m s).2 ++ t)).2 := by
    rw [processChunk, if_neg (by decide)]
    rw [show initStream.buffer ++ (s ++ t) = s ++ t from rfl]
    rw [hsp]
    exact foldl_step_setBuf _ hs1 _ initStream _
  have h2 : processChunk m step initStream s
      = setBuf ((jsSplit m s).1.foldl step initStream) (jsSplit m s).2 := by
    rw [processChunk, if_neg (by decide)]
    rw [show initStream.buffer ++ s = s from rfl]
    exact foldl_step_setBuf _ hs1 _ initStream _
  set T := (jsSplit m s).1.foldl step initStream with hT
  have hflush : ∀ buf, jsSplit m buf = ([], buf) →
      (processChunk m step (setBuf T buf) []).fullReply = T.fullReply
      ∧ (processChunk m step (setBuf T buf) []).outs = T.outs := by
    intro buf hbuf
    by_cases hd : T.done = true
    · rw [processChunk, if_pos (show (setBuf T buf).done = true from hd)]
      exact ⟨rfl, rfl⟩
    · rw [processChunk, if_neg (show ¬(setBuf T buf).done = true from hd)]
      rw [setBuf_buffer, List.append_nil, hbuf]
      exact ⟨rfl, rfl⟩
  have hb1 : jsSplit m ((jsSplit m ((jsSplit m s).2 ++ t)).2)
      = ([], (jsSplit m ((jsSplit m s).2 ++ t)).2) :=
    jsSplit_tail_fixed m hm ((jsSplit m s).2 ++ t).length
      ((jsSplit m s).2 ++ t) le_rfl
  have hb2 : jsSplit m ((jsSplit m s).2) = ([], (jsSplit m s).2) :=
    jsSplit_tail_fixed m hm s.length s le_rfl
  have e1 : runStream m step [s ++ t]
      = processChunk m step
          (setBuf T (jsSplit m ((jsSplit m s).2 ++ t)).2) [] := by
    rw [runStream, List.foldl_cons, List.foldl_nil, h1]
  have e2 : runStream m step [s]
      = processChunk m step (setBuf T (jsSplit m s).2) [] := by
    rw [runStream, List.foldl_cons, List.foldl_nil, h2]
  rw [e1, e2]
  exact ⟨(hflush _ hb1).1.trans (hflush _ hb2).1.symm,
    (hflush _ hb1).2.trans (hflush _ hb2).2.symm⟩

/-- C8 (amended): in BOTH read loops, trailing data `t` after the last frame
separator (none of whose characters completes a separator, given the
retained tail of `s`) is kept in the carry-over buffer but never decoded at
end-of-stream: the final text and delta sequence are those of the stream
without `t`.  End-of-input does not act as a frame terminator. -/
theorem c8_trailing_buffer_not_decoded (jdO : List Char → Option (List Char))
    (jdG : List Char → Option GemChunk) (sO tO sG tG : List Char)
    (htO : (jsSplit matchSep ((jsSplit matchSep sO).2 ++ tO)).1 = [])
    (htG : (jsSplit stripNL ((jsSplit stripNL sG).2 ++ tG)).1 = []) :
    (runO jdO [sO ++ tO]).fullReply = (runO jdO [sO]).fullReply
    ∧ (runO jdO [sO ++ tO]).outs = (runO jdO [sO]).outs
    ∧ (runG jdG [sG ++ tG]).fullReply = (runG jdG [sG]).fullReply
    ∧ (runG jdG [sG ++ tG]).outs = (runG jdG [sG]).outs := by
  have hO := runStream_trailing matchSep (stepEventO jdO) matchSep_shrink
    matchSep_append matchSep_jsFlip (stepEventO_setBuf jdO) sO tO htO
  have hG := runStream_trailing stripNL (stepLineG jdG) stripNL_shrink
    stripNL_append stripNL_jsFlip (stepLineG_setBuf jdG) sG tG htG
  exact ⟨hO.1, hO.2, hG.1, hG.2⟩

theorem c8_trailing_buffer_not_decoded_witness :
    (runO jdOTest [strL "data: ok\n\n" ++ strL "data: tw"]).fullReply
      = (runO jdOTest [strL "data: ok\n\n"]).fullReply
    ∧ (runG jdTest [strL "data: one\n" ++ strL "data: tw"]).fullReply
      = (runG jdTest [strL "data: one\n"]).fullReply := by
  have h := c8_trailing_buffer_not_decoded jdOTest jdTest
    (strL "data: ok\n\n") (strL "data: tw") (strL "data: one\n") (strL "data: tw")
    (by decide) (by decide)
  exact ⟨h.1, h.2.2.1⟩
